import Mathlib

/-!
Shallow embedding of the SP-dock matching-and-alignment core
(src/src/docker/docker.cpp, with the vertex type from inc/graph/node.h).

Scalars are exact rationals (the C++ uses IEEE doubles; the embedding uses
exact arithmetic).  The transcendental functions the code calls (sqrt via
glm::normalize, cos, sin, acos, pi) are abstract parameters of the embedding,
collected in RealFns.  IEEE NaN outcomes (0/0 in the similarity score,
normalising a zero vector, the 1/size factor on an empty group) are modelled
explicitly: the similarity score has a NaN constructor, and the cloud
merger's average normal is an Option that is none exactly when the C++
value would be NaN.
-/

/-- A 3-component vector of exact rationals, standing for glm::dvec3. -/
structure Vec3 where
  x : ℚ
  y : ℚ
  z : ℚ
  deriving DecidableEq

def Vec3.zero : Vec3 := ⟨0, 0, 0⟩

def Vec3.add (a b : Vec3) : Vec3 := ⟨a.x + b.x, a.y + b.y, a.z + b.z⟩

def Vec3.sub (a b : Vec3) : Vec3 := ⟨a.x - b.x, a.y - b.y, a.z - b.z⟩

def Vec3.neg (a : Vec3) : Vec3 := ⟨-a.x, -a.y, -a.z⟩

def Vec3.smul (q : ℚ) (a : Vec3) : Vec3 := ⟨q * a.x, q * a.y, q * a.z⟩

def Vec3.dot (a b : Vec3) : ℚ := a.x * b.x + a.y * b.y + a.z * b.z

/-- glm::cross convention: cross(a,b) = (a.y b.z - b.y a.z, a.z b.x - b.z a.x, a.x b.y - b.x a.y). -/
def Vec3.cross (a b : Vec3) : Vec3 :=
  ⟨a.y * b.z - b.y * a.z, a.z * b.x - b.z * a.x, a.x * b.y - b.x * a.y⟩

/-- One (Patch, Descriptor) entry of a SurfaceDescriptors sequence.  The
Patch and Descriptor headers are not under src; the fields are modelled from
their uses in docker.cpp and from the spec data model: a patch has a
representative position and normal (get_pos, get_normal) and an ordered list
of vertex indices (nodes); a descriptor has a scalar curvature (curv) and a
convexity class (type), modelled as a Nat because only equality of classes is
ever used. -/
structure PatchDesc where
  pos : Vec3
  normal : Vec3
  nodes : List Nat
  curv : ℚ
  ctype : Nat
  deriving DecidableEq

def defaultPatch : PatchDesc := ⟨Vec3.zero, Vec3.zero, [], 0, 0⟩

/-- SurfaceDescriptors is a vector of (Patch, Descriptor) pairs; indexing is
total here with a junk default (the C++ indexes unchecked; no claim depends
on out-of-range indices). -/
def descGet (desc : List PatchDesc) (i : Nat) : PatchDesc := desc.getD i defaultPatch

/-- The vertex graph: only Node.get_pos reaches this code (inc/graph/node.h,
pos field), so a graph is its list of vertex positions. -/
structure Graph where
  nodes : List Vec3

def Graph.get_node_pos (g : Graph) (i : Nat) : Vec3 := g.nodes.getD i Vec3.zero

/-- The configuration constants of inc/parameters.h (not under src); the spec
lists them as externally configured: N_BEST_PAIRS (top candidates kept per
target patch) and G_THRESH (geodesic grouping threshold, a non-negative
distance). -/
structure Parameters where
  N_BEST_PAIRS : Nat
  G_THRESH : ℚ

/-- Abstract transcendental functions used by the code: sqrt (reached through
glm::normalize), cos, sin, acos and the constant pi.  The embedding is
parametric in them; theorems that need a genuine fact about one of them take
it as a hypothesis. -/
structure RealFns where
  sqrt : ℚ → ℚ
  cos : ℚ → ℚ
  sin : ℚ → ℚ
  acos : ℚ → ℚ
  pi : ℚ

/-- Truncated square root of a nonnegative rational: glm::length returns the
real square root, and the int return type of geodesic_distance truncates it
toward zero.  For d2 ≥ 0, trunc (Real.sqrt d2) = Nat.sqrt ⌊d2⌋. -/
def isqrtQ (d2 : ℚ) : ℤ := (Nat.sqrt (Int.toNat ⌊d2⌋) : ℤ)

/-- docker.cpp lines 18-28: the geodesic distance placeholder.  It computes
the Euclidean distance glm::length(n1 - n2) between the two patches'
representative positions, and the int return type truncates that double to an
integer. -/
def geodesic_distance (lhs_patch_ind rhs_patch_ind : Nat) (desc : List PatchDesc) : ℤ :=
  let n1 := (descGet desc lhs_patch_ind).pos
  let n2 := (descGet desc rhs_patch_ind).pos
  isqrtQ (Vec3.dot (Vec3.sub n1 n2) (Vec3.sub n1 n2))

/-- docker.cpp lines 31-39: strict lexicographic comparison of two points,
the ordering of the std::set used as cloud. -/
def comp_point (lhs rhs : Vec3) : Bool :=
  if lhs.x ≠ rhs.x then decide (lhs.x < rhs.x)
  else if lhs.y ≠ rhs.y then decide (lhs.y < rhs.y)
  else if lhs.z ≠ rhs.z then decide (lhs.z < rhs.z)
  else false

/-- std::set.insert on the sorted model of the BST: keep the list strictly
increasing under comp_point, inserting nothing when an equivalent element
(neither strictly less in either direction) is present. -/
def setInsert (p : Vec3) : List Vec3 → List Vec3
  | [] => [p]
  | q :: qs =>
    if comp_point p q then p :: q :: qs
    else if comp_point q p then q :: setInsert p qs
    else q :: qs

/-- docker.cpp lines 45-74 (build_cloud_from_group): merge every vertex
position of every member patch into a deduplicated cloud (a std::set ordered
by comp_point, copied out in order), while accumulating the sum of the member
patches' representative normals; finally the average normal is
normalize(sum * (1/size)).  The average is none exactly when the C++ value
would be NaN: an empty group (1.0/0 is inf and 0*inf is NaN) or a zero mean
vector (glm::normalize divides by length 0). -/
def build_cloud_from_group (rf : RealFns) (group : List Nat)
    (descriptors : List PatchDesc) (target : Graph) : List Vec3 × Option Vec3 :=
  let step : List Vec3 × Vec3 → Nat → List Vec3 × Vec3 := fun acc gi =>
    let patch := descGet descriptors gi
    (patch.nodes.foldl (fun c ni => setInsert (target.get_node_pos ni) c) acc.1,
     Vec3.add acc.2 patch.normal)
  let res := group.foldl step ([], Vec3.zero)
  let avg :=
    if group.length = 0 then none
    else
      let m := Vec3.smul (1 / (group.length : ℚ)) res.2
      if m = Vec3.zero then none
      else some (Vec3.smul (1 / rf.sqrt (Vec3.dot m m)) m)
  (res.1, avg)

/-- An IEEE double similarity score: finite, +infinity, or NaN. -/
inductive Score where
  | fin : ℚ → Score
  | inf : Score
  | nan : Score
  deriving DecidableEq

/-- docker.cpp line 101: fabs(ct - cl) / max(ct, cl) in IEEE arithmetic.
Nonzero denominator gives the finite rational; a zero denominator gives NaN
when the numerator is zero (0/0) and +inf otherwise (positive/0). -/
def scoreOf (ct cl : ℚ) : Score :=
  if max ct cl = 0 then (if |ct - cl| = 0 then Score.nan else Score.inf)
  else Score.fin (|ct - cl| / max ct cl)

/-- docker.cpp lines 94-104: the similarity list of one target patch, pairs
(score, ligand index) for every ligand patch whose convexity class differs
from the target's, in increasing ligand index order. -/
def similarity_list (t_patch : PatchDesc) (desc_ligand : List PatchDesc) :
    List (Score × Nat) :=
  (List.range desc_ligand.length).filterMap fun l =>
    let l_patch := descGet desc_ligand l
    if t_patch.ctype ≠ l_patch.ctype then some (scoreOf t_patch.curv l_patch.curv, l)
    else none

/-- IEEE operator< on scores: every comparison against NaN is false, and
inf < inf is false. -/
def scoreLtB : Score → Score → Bool
  | Score.fin a, Score.fin b => decide (a < b)
  | Score.fin _, Score.inf => true
  | _, _ => false

/-- std::pair lexicographic operator< on (score, ligand index): first < on
scores, then, when neither score is less than the other, < on indices. -/
def pairLtB (a b : Score × Nat) : Bool :=
  scoreLtB a.1 b.1 || (!scoreLtB b.1 a.1 && decide (a.2 < b.2))

def insSorted (x : Score × Nat) : List (Score × Nat) → List (Score × Nat)
  | [] => [x]
  | y :: ys => if pairLtB x y then x :: y :: ys else y :: insSorted x ys

/-- The sorted rearrangement produced by std::sort under pairLtB.  With no
NaN score present, pairLtB is a strict total order on the distinct-index
entries, so the sorted result is unique and insertion sort computes it. -/
def sortPairs : List (Score × Nat) → List (Score × Nat)
  | [] => []
  | x :: xs => insSorted x (sortPairs xs)

/-- docker.cpp lines 94-113, the Similarity Ranker body for one target patch:
build the similarity list, std::sort it, erase everything after the first
N_BEST_PAIRS entries.  The result is none on the two undefined behaviours of
the source: std::sort with a NaN key violates its strict-weak-ordering
precondition, and erase(begin() + K, end()) with K > size() forms an
out-of-range iterator. -/
def ranked_candidates (P : Parameters) (t_patch : PatchDesc)
    (desc_ligand : List PatchDesc) : Option (List (Score × Nat)) :=
  let sl := similarity_list t_patch desc_ligand
  if sl.any (fun e => decide (e.1 = Score.nan)) then none
  else if P.N_BEST_PAIRS ≤ sl.length then some ((sortPairs sl).take P.N_BEST_PAIRS)
  else none

/-- MatchingGroup: an ordered sequence of (target patch index, ligand patch
index) pairs. -/
abbrev MatchingGroup := List (Nat × Nat)

/-- docker.cpp lines 125-132: the grouping criterion of cur_pair against one
existing group: every pair already in the group must be within G_THRESH of
cur_pair on the target side and on the ligand side (the loop starts from true
and any violated comparison clears it). -/
def grouping_crit (P : Parameters) (desc_target desc_ligand : List PatchDesc)
    (cur_pair : Nat × Nat) (grp : MatchingGroup) : Bool :=
  grp.all fun pair =>
    decide (((geodesic_distance cur_pair.1 pair.1 desc_target : ℚ)) ≤ P.G_THRESH) &&
    decide (((geodesic_distance cur_pair.2 pair.2 desc_ligand : ℚ)) ≤ P.G_THRESH)

/-- docker.cpp lines 116-148, one iteration of the candidate loop: push
cur_pair into every group satisfying the criterion, and append a new
singleton group when no group satisfied it. -/
def add_pair (P : Parameters) (desc_target desc_ligand : List PatchDesc)
    (groups : List MatchingGroup) (cur_pair : Nat × Nat) : List MatchingGroup :=
  let groups2 := groups.map fun grp =>
    if grouping_crit P desc_target desc_ligand cur_pair grp then grp ++ [cur_pair] else grp
  if groups.any (grouping_crit P desc_target desc_ligand cur_pair) then groups2
  else groups2 ++ [[cur_pair]]

/-- The candidate loop of one target patch: fold add_pair over the ranked
candidate list, pairing the target index with each candidate's ligand
index. -/
def process_pairs (P : Parameters) (desc_target desc_ligand : List PatchDesc)
    (t : Nat) (cands : List (Score × Nat)) (groups : List MatchingGroup) :
    List MatchingGroup :=
  cands.foldl (fun gs lig => add_pair P desc_target desc_ligand gs (t, lig.2)) groups

/-- The target loop of build_matching_groups over the remaining target
indices, threading the group accumulator; none as soon as one target's
ranking step hits undefined behaviour. -/
def bmgAux (P : Parameters) (desc_target desc_ligand : List PatchDesc) :
    List Nat → List MatchingGroup → Option (List MatchingGroup)
  | [], groups => some groups
  | t :: ts, groups =>
    match ranked_candidates P (descGet desc_target t) desc_ligand with
    | none => none
    | some cands =>
        bmgAux P desc_target desc_ligand ts
          (process_pairs P desc_target desc_ligand t cands groups)

/-- docker.cpp lines 79-153 (Docker::build_matching_groups): for each target
patch index in order, rank the ligand candidates and group each candidate
pair into groups_out. -/
def build_matching_groups (P : Parameters) (desc_target desc_ligand : List PatchDesc)
    (groups_out : List MatchingGroup) : Option (List MatchingGroup) :=
  bmgAux P desc_target desc_ligand (List.range desc_target.length) groups_out

/-- A 4-component rational vector (glm::dvec4). -/
structure Vec4 where
  x : ℚ
  y : ℚ
  z : ℚ
  w : ℚ
  deriving DecidableEq

def Vec4.add (a b : Vec4) : Vec4 := ⟨a.x + b.x, a.y + b.y, a.z + b.z, a.w + b.w⟩

def Vec4.smul (q : ℚ) (a : Vec4) : Vec4 := ⟨q * a.x, q * a.y, q * a.z, q * a.w⟩

/-- A 4x4 rational matrix in glm's column-major layout: c0..c3 are the
columns. -/
structure Mat4 where
  c0 : Vec4
  c1 : Vec4
  c2 : Vec4
  c3 : Vec4
  deriving DecidableEq

/-- Matrix-vector product with column vectors: M v = sum of columns weighted
by the components of v. -/
def Mat4.mulVec (m : Mat4) (v : Vec4) : Vec4 :=
  (Vec4.smul v.x m.c0).add ((Vec4.smul v.y m.c1).add ((Vec4.smul v.z m.c2).add (Vec4.smul v.w m.c3)))

def Mat4.mul (a b : Mat4) : Mat4 :=
  ⟨a.mulVec b.c0, a.mulVec b.c1, a.mulVec b.c2, a.mulVec b.c3⟩

def Mat4.identity : Mat4 :=
  ⟨⟨1, 0, 0, 0⟩, ⟨0, 1, 0, 0⟩, ⟨0, 0, 1, 0⟩, ⟨0, 0, 0, 1⟩⟩

/-- glm::translate(dmat4(1.0), t): the identity with (t, 1) as last column. -/
def translateMat (t : Vec3) : Mat4 :=
  ⟨⟨1, 0, 0, 0⟩, ⟨0, 1, 0, 0⟩, ⟨0, 0, 1, 0⟩, ⟨t.x, t.y, t.z, 1⟩⟩

/-- A quaternion with glm's component order (w scalar part, x y z vector
part), as built by the glm::dquat(w, x, y, z) constructor. -/
structure Quat where
  w : ℚ
  x : ℚ
  y : ℚ
  z : ℚ
  deriving DecidableEq

/-- glm::mat4_cast: the 3x3 rotation matrix of mat3_cast embedded in the
identity 4x4.  Column-major entries exactly as glm computes them (no
normalisation of the quaternion). -/
def mat4_cast (q : Quat) : Mat4 :=
  let qxx := q.x * q.x
  let qyy := q.y * q.y
  let qzz := q.z * q.z
  let qxz := q.x * q.z
  let qxy := q.x * q.y
  let qyz := q.y * q.z
  let qwx := q.w * q.x
  let qwy := q.w * q.y
  let qwz := q.w * q.z
  ⟨⟨1 - 2 * (qyy + qzz), 2 * (qxy + qwz), 2 * (qxz - qwy), 0⟩,
   ⟨2 * (qxy - qwz), 1 - 2 * (qxx + qzz), 2 * (qyz + qwx), 0⟩,
   ⟨2 * (qxz + qwy), 2 * (qyz - qwx), 1 - 2 * (qxx + qyy), 0⟩,
   ⟨0, 0, 0, 1⟩⟩

/-- Modelled from the spec: cloud_centroid comes from inc/math/linalg.h,
which is not under src.  The spec (section 4.4 step 1) defines it as the
arithmetic mean of all points of the cloud, undefined for empty clouds; here
the empty case yields Vec3.zero through rational division by zero, and no
claim depends on it. -/
def cloud_centroid (cloud : List Vec3) : Vec3 :=
  Vec3.smul (1 / (cloud.length : ℚ)) (cloud.foldl Vec3.add Vec3.zero)

/-- docker.cpp lines 165-215, the loop body of
transformations_from_matching_groups for one matching group: split the group
into its target-side and ligand-side index lists, merge each side's cloud,
take centroids, build the rotation quaternion from the cross product (axis)
and the half-angle formula (rot_angle), cast it to a matrix and compose
translate(target_centroid) * rotation * translate(-ligand_centroid).  The
result is none when either merged average normal is NaN (in the C++ the NaN
would flow into every entry of the pushed matrix). -/
def transform_of_group (rf : RealFns) (target : Graph) (desc_target : List PatchDesc)
    (ligand : Graph) (desc_ligand : List PatchDesc) (MG : MatchingGroup) : Option Mat4 :=
  let target_groups := MG.map Prod.fst
  let ligand_groups := MG.map Prod.snd
  let tres := build_cloud_from_group rf target_groups desc_target target
  let lres := build_cloud_from_group rf ligand_groups desc_ligand ligand
  match tres.2, lres.2 with
  | some target_normal, some ligand_normal =>
    let target_centroid := cloud_centroid tres.1
    let ligand_centroid := cloud_centroid lres.1
    let rot_axle := Vec3.cross ligand_normal target_normal
    let rot_angle := (rf.acos (Vec3.dot ligand_normal target_normal) + rf.pi) / 2
    let rot_cos := rf.cos rot_angle
    let rot_sin := rf.sin rot_angle
    let quat_align_normals : Quat :=
      ⟨rot_cos, rot_axle.x * rot_sin, rot_axle.y * rot_sin, rot_axle.z * rot_sin⟩
    let align_normals := mat4_cast quat_align_normals
    some ((translateMat target_centroid).mul
          (align_normals.mul (translateMat (Vec3.neg ligand_centroid))))
  | _, _ => none

/-- docker.cpp lines 157-219 (Docker::transformations_from_matching_groups):
walk the matching groups in order and push one transformation per group onto
mg_transformation. -/
def transformations_from_matching_groups (rf : RealFns)
    (matching_groups : List MatchingGroup) (target : Graph)
    (desc_target : List PatchDesc) (ligand : Graph) (desc_ligand : List PatchDesc)
    (mg_transformation : List (Option Mat4)) : List (Option Mat4) :=
  match matching_groups with
  | [] => mg_transformation
  | MG :: rest =>
      transformations_from_matching_groups rf rest target desc_target ligand desc_ligand
        (mg_transformation ++ [transform_of_group rf target desc_target ligand desc_ligand MG])

/-- The Transform Estimator output exactly as the spec words it (claim C5):
the matrix translate(targetCentroid) * R * translate(-ligandCentroid), where
R is the rotation matrix of the quaternion with scalar part cos(angle) and
vector part axis * sin(angle), axis = cross(ligandNormal, targetNormal) and
angle = (acos(dot(ligandNormal, targetNormal)) + pi) / 2; the centroids are
the means of the two merged clouds and the normals the merged average
normals.  Defined (some) only when both average normals are. -/
def spec_transform (rf : RealFns) (target : Graph) (desc_target : List PatchDesc)
    (ligand : Graph) (desc_ligand : List PatchDesc) (MG : MatchingGroup) : Option Mat4 :=
  let tside := build_cloud_from_group rf (MG.map Prod.fst) desc_target target
  let lside := build_cloud_from_group rf (MG.map Prod.snd) desc_ligand ligand
  (tside.2.bind fun tn => lside.2.map fun ln =>
    let axis := Vec3.cross ln tn
    let angle := (rf.acos (Vec3.dot ln tn) + rf.pi) / 2
    let R := mat4_cast ⟨rf.cos angle, axis.x * rf.sin angle, axis.y * rf.sin angle,
                        axis.z * rf.sin angle⟩
    (translateMat (cloud_centroid tside.1)).mul
      (R.mul (translateMat (Vec3.neg (cloud_centroid lside.1)))))

/-! ### Shared sample fixtures used by concrete witnesses and counterexamples -/

def samplePatchT : PatchDesc :=
  { pos := Vec3.zero, normal := ⟨0, 0, 1⟩, nodes := [0, 1], curv := 1, ctype := 0 }

def samplePatchL : PatchDesc :=
  { pos := ⟨1, 0, 0⟩, normal := ⟨0, 0, 1⟩, nodes := [0], curv := 1, ctype := 1 }

def sampleParams : Parameters := ⟨1, 10⟩

def sampleFns : RealFns := ⟨id, id, id, fun _ => 0, 3⟩

def sampleGraph : Graph := ⟨[⟨0, 0, 0⟩, ⟨1, 0, 0⟩]⟩

/-! ### Geodesic distance: truncation bounds (claim C2) -/

theorem Vec3.dot_self_nonneg (v : Vec3) : 0 ≤ Vec3.dot v v := by
  have hx := mul_self_nonneg v.x
  have hy := mul_self_nonneg v.y
  have hz := mul_self_nonneg v.z
  unfold Vec3.dot; linarith

theorem isqrtQ_nonneg (d2 : ℚ) : 0 ≤ isqrtQ d2 := Int.natCast_nonneg _

theorem isqrtQ_sq_le {d2 : ℚ} (h : 0 ≤ d2) : ((isqrtQ d2 : ℚ)) ^ 2 ≤ d2 := by
  have hfl : 0 ≤ ⌊d2⌋ := Int.floor_nonneg.mpr h
  have h1 : (Nat.sqrt (Int.toNat ⌊d2⌋)) ^ 2 ≤ Int.toNat ⌊d2⌋ := Nat.sqrt_le' _
  have hcast : ((Int.toNat ⌊d2⌋ : ℚ)) = ((⌊d2⌋ : ℚ)) := by
    exact_mod_cast congrArg (fun z : ℤ => (z : ℚ)) (Int.toNat_of_nonneg hfl)
  have h2 : ((Int.toNat ⌊d2⌋ : ℚ)) ≤ d2 := by rw [hcast]; exact Int.floor_le d2
  calc ((isqrtQ d2 : ℚ)) ^ 2 = ((Nat.sqrt (Int.toNat ⌊d2⌋) ^ 2 : ℕ) : ℚ) := by
        unfold isqrtQ; push_cast; ring
    _ ≤ ((Int.toNat ⌊d2⌋ : ℕ) : ℚ) := by exact_mod_cast h1
    _ ≤ d2 := h2

theorem lt_isqrtQ_succ_sq {d2 : ℚ} (h : 0 ≤ d2) : d2 < ((isqrtQ d2 : ℚ) + 1) ^ 2 := by
  have hfl : 0 ≤ ⌊d2⌋ := Int.floor_nonneg.mpr h
  have h1 : Int.toNat ⌊d2⌋ + 1 ≤ (Nat.sqrt (Int.toNat ⌊d2⌋) + 1) ^ 2 := Nat.succ_le_succ_sqrt' _
  have hcast : ((Int.toNat ⌊d2⌋ : ℚ)) = ((⌊d2⌋ : ℚ)) := by
    exact_mod_cast congrArg (fun z : ℤ => (z : ℚ)) (Int.toNat_of_nonneg hfl)
  have h2 : d2 < ((Int.toNat ⌊d2⌋ : ℚ)) + 1 := by rw [hcast]; exact Int.lt_floor_add_one d2
  calc d2 < ((Int.toNat ⌊d2⌋ : ℚ)) + 1 := h2
    _ = (((Int.toNat ⌊d2⌋ + 1 : ℕ)) : ℚ) := by push_cast; ring
    _ ≤ (((Nat.sqrt (Int.toNat ⌊d2⌋) + 1) ^ 2 : ℕ) : ℚ) := by exact_mod_cast h1
    _ = ((isqrtQ d2 : ℚ) + 1) ^ 2 := by unfold isqrtQ; push_cast; ring

/-- C2 (counterexample): the geodesic distance is not the Euclidean distance
between the representative positions.  For patches at (0,0,0) and (3/2,0,0)
the Euclidean distance is exactly 3/2 (it is nonnegative and its square is
the squared difference of positions), but geodesic_distance returns the int 1. -/
theorem geodesic_distance_truncates_counterexample :
    geodesic_distance 0 1
      [{ pos := ⟨0, 0, 0⟩, normal := Vec3.zero, nodes := [], curv := 0, ctype := 0 },
       { pos := ⟨3/2, 0, 0⟩, normal := Vec3.zero, nodes := [], curv := 0, ctype := 0 }] = 1 ∧
    (0 : ℚ) ≤ 3/2 ∧
    (3/2 : ℚ) ^ 2 =
      Vec3.dot (Vec3.sub ⟨0, 0, 0⟩ ⟨3/2, 0, 0⟩) (Vec3.sub ⟨0, 0, 0⟩ ⟨3/2, 0, 0⟩) ∧
    ((1 : ℤ) : ℚ) ≠ 3/2 := by
  refine ⟨?_, by norm_num, ?_, by norm_num⟩
  · have h94 : ⌊((9/4 : ℚ))⌋ = 2 := by norm_num [Int.floor_eq_iff]
    simp only [geodesic_distance, descGet, List.getD, Vec3.sub, Vec3.dot, isqrtQ]
    norm_num [h94]
    show Nat.sqrt 2 = 1
    norm_num
  · simp only [Vec3.sub, Vec3.dot]
    norm_num

/-- C2 (amended): the Group Builder's geodesic distance is the Euclidean
distance between the two patches' representative positions truncated to an
integer (its floor, the distance being nonnegative), the truncation coming
from the int return type: it is nonnegative, its square is at most the
squared Euclidean distance, and the squared Euclidean distance is less than
the square of its successor. -/
theorem geodesic_distance_floor_of_euclidean (i j : Nat) (desc : List PatchDesc) :
    0 ≤ geodesic_distance i j desc ∧
    ((geodesic_distance i j desc : ℚ)) ^ 2 ≤
      Vec3.dot (Vec3.sub (descGet desc i).pos (descGet desc j).pos)
        (Vec3.sub (descGet desc i).pos (descGet desc j).pos) ∧
    Vec3.dot (Vec3.sub (descGet desc i).pos (descGet desc j).pos)
        (Vec3.sub (descGet desc i).pos (descGet desc j).pos) <
      ((geodesic_distance i j desc : ℚ) + 1) ^ 2 := by
  have h0 : 0 ≤ Vec3.dot (Vec3.sub (descGet desc i).pos (descGet desc j).pos)
      (Vec3.sub (descGet desc i).pos (descGet desc j).pos) := Vec3.dot_self_nonneg _
  exact ⟨isqrtQ_nonneg _, isqrtQ_sq_le h0, lt_isqrtQ_succ_sq h0⟩

/-! ### Claims C3, C4, C7: missing guards (code bugs) -/

/-- C3: with N_BEST_PAIRS = 1 and a target patch that has no eligible ligand
candidate (empty ligand list), the similarity list is empty, so the removal
step erase(begin() + 1, end()) forms the out-of-range iterator begin() + 1 on
an empty vector; the ranking step, and with it build_matching_groups, has no
defined result (none in the model). -/
theorem ranked_candidates_erase_out_of_range :
    ranked_candidates sampleParams samplePatchT [] = none ∧
    build_matching_groups sampleParams [samplePatchT] [] [] = none := by
  constructor
  · simp [ranked_candidates, similarity_list, sampleParams]
  · simp [build_matching_groups, bmgAux, ranked_candidates, similarity_list, sampleParams,
      List.range_succ]

/-- C4: the zero-denominator case of the dissimilarity score is not guarded:
for an eligible pair (different convexity classes) whose curvatures are both
zero, the code divides 0 by 0 and pushes the resulting NaN score into the
similarity list instead of skipping the pair. -/
theorem similarity_score_nan_unguarded :
    scoreOf 0 0 = Score.nan ∧
    similarity_list { pos := Vec3.zero, normal := Vec3.zero, nodes := [], curv := 0, ctype := 0 }
        [{ pos := Vec3.zero, normal := Vec3.zero, nodes := [], curv := 0, ctype := 1 }] =
      [(Score.nan, 0)] := by
  constructor
  · simp [scoreOf]
  · simp [similarity_list, scoreOf, descGet, List.range_succ]

/-- C7: the average-normal computation of the cloud merger is not guarded:
on an empty group the code multiplies the zero sum by 1.0/0 (NaN), and on a
group whose representative normals sum to zero it normalises the zero vector
(NaN); both produce a NaN average (none) instead of an explicit failure, and
the transformation step then delivers the resulting garbage matrix to the
caller (the output still receives one entry for the group) rather than
reporting an error. -/
theorem avg_normal_unguarded :
    (build_cloud_from_group sampleFns [] [] ⟨[]⟩).2 = none ∧
    (build_cloud_from_group sampleFns [0, 1]
        [{ pos := Vec3.zero, normal := ⟨0, 0, 1⟩, nodes := [], curv := 0, ctype := 0 },
         { pos := Vec3.zero, normal := ⟨0, 0, -1⟩, nodes := [], curv := 0, ctype := 0 }]
        ⟨[]⟩).2 = none ∧
    transformations_from_matching_groups sampleFns [[(0, 0), (1, 1)]] ⟨[]⟩
        [{ pos := Vec3.zero, normal := ⟨0, 0, 1⟩, nodes := [], curv := 0, ctype := 0 },
         { pos := Vec3.zero, normal := ⟨0, 0, -1⟩, nodes := [], curv := 0, ctype := 0 }]
        ⟨[]⟩
        [{ pos := Vec3.zero, normal := ⟨0, 0, 1⟩, nodes := [], curv := 0, ctype := 0 },
         { pos := Vec3.zero, normal := ⟨0, 0, -1⟩, nodes := [], curv := 0, ctype := 0 }]
        [] = [none] := by
  have hmerge : (build_cloud_from_group sampleFns [0, 1]
      [{ pos := Vec3.zero, normal := ⟨0, 0, 1⟩, nodes := [], curv := 0, ctype := 0 },
       { pos := Vec3.zero, normal := ⟨0, 0, -1⟩, nodes := [], curv := 0, ctype := 0 }]
      ⟨[]⟩).2 = none := by
    simp [build_cloud_from_group, descGet, List.getD_cons_zero, List.getD_cons_succ,
      Vec3.add, Vec3.smul, Vec3.zero]
  refine ⟨by simp [build_cloud_from_group], hmerge, ?_⟩
  simp only [transformations_from_matching_groups, transform_of_group, List.map,
    List.nil_append]
  simp [hmerge]

/-! ### Claim C5: the Transform Estimator computes the spec formula -/

/-- The loop body of the Transform Estimator agrees with the spec formula on
every matching group. -/
theorem transform_of_group_eq_spec (rf : RealFns) (target : Graph) (desc_target : List PatchDesc)
    (ligand : Graph) (desc_ligand : List PatchDesc) (MG : MatchingGroup) :
    transform_of_group rf target desc_target ligand desc_ligand MG =
      spec_transform rf target desc_target ligand desc_ligand MG := by
  unfold transform_of_group spec_transform
  rcases h1 : (build_cloud_from_group rf (MG.map Prod.fst) desc_target target).2 with _ | tn <;>
    rcases h2 : (build_cloud_from_group rf (MG.map Prod.snd) desc_ligand ligand).2 with _ | ln <;>
    simp [h1, h2]

/-- The transformation loop only appends: its output is the initial
accumulator followed by one transformation per group, in group order. -/
theorem tfmg_eq_append_map (rf : RealFns) (mgs : List MatchingGroup) (target : Graph)
    (desc_target : List PatchDesc) (ligand : Graph) (desc_ligand : List PatchDesc)
    (init : List (Option Mat4)) :
    transformations_from_matching_groups rf mgs target desc_target ligand desc_ligand init =
      init ++ mgs.map (transform_of_group rf target desc_target ligand desc_ligand) := by
  induction mgs generalizing init with
  | nil => simp [transformations_from_matching_groups]
  | cons mg rest ih =>
      rw [transformations_from_matching_groups, ih]
      simp

/-- C5: transformations_from_matching_groups appends, per matching group and
in the order of the input group list, exactly one transformation, equal to
translate(targetCentroid) * R * translate(-ligandCentroid) where R is the
rotation matrix of the quaternion with scalar part cos(angle) and vector part
axis * sin(angle), axis = cross(ligandNormal, targetNormal) and
angle = (acos(dot(ligandNormal, targetNormal)) + pi) / 2 (the spec_transform
formula). -/
theorem transformations_match_spec (rf : RealFns) (mgs : List MatchingGroup) (target : Graph)
    (desc_target : List PatchDesc) (ligand : Graph) (desc_ligand : List PatchDesc)
    (init : List (Option Mat4)) :
    transformations_from_matching_groups rf mgs target desc_target ligand desc_ligand init =
      init ++ mgs.map (spec_transform rf target desc_target ligand desc_ligand) := by
  rw [tfmg_eq_append_map]
  congr 1
  exact List.map_congr_left fun mg _ =>
    transform_of_group_eq_spec rf target desc_target ligand desc_ligand mg

/-! ### Claim C6: equal normals give the identity-rotation fallback -/

/-- glm::mat4_cast of any quaternion with zero vector part is the identity
matrix: every product entry contains a factor from the vector part. -/
theorem mat4_cast_vector_zero (w : ℚ) : mat4_cast ⟨w, 0, 0, 0⟩ = Mat4.identity := by
  simp [mat4_cast, Mat4.identity]

/-- C6: when the merged ligand average normal equals the merged target
average normal (a unit vector, with acos(1) = 0 for the abstract acos), the
rotation angle formula yields pi/2 (90 degrees), the rotation axis is the
zero vector, and the resulting transformation is exactly the identity
rotation composed with the centroid translations — a defined matrix, not
NaN. -/
theorem equal_normals_identity_fallback (rf : RealFns) (target ligand : Graph)
    (desc_target desc_ligand : List PatchDesc) (MG : MatchingGroup) (n : Vec3)
    (ht : (build_cloud_from_group rf (MG.map Prod.fst) desc_target target).2 = some n)
    (hl : (build_cloud_from_group rf (MG.map Prod.snd) desc_ligand ligand).2 = some n)
    (hunit : Vec3.dot n n = 1) (hacos : rf.acos 1 = 0) :
    (rf.acos (Vec3.dot n n) + rf.pi) / 2 = rf.pi / 2 ∧
    Vec3.cross n n = Vec3.zero ∧
    transform_of_group rf target desc_target ligand desc_ligand MG =
      some ((translateMat
          (cloud_centroid (build_cloud_from_group rf (MG.map Prod.fst) desc_target target).1)).mul
        (Mat4.identity.mul (translateMat (Vec3.neg
          (cloud_centroid (build_cloud_from_group rf (MG.map Prod.snd) desc_ligand ligand).1))))) := by
  have hcross : Vec3.cross n n = Vec3.zero := by
    simp [Vec3.cross, Vec3.zero]
  refine ⟨by rw [hunit, hacos]; ring, hcross, ?_⟩
  unfold transform_of_group
  simp only [ht, hl, hcross]
  rw [show (⟨rf.cos ((rf.acos (Vec3.dot n n) + rf.pi) / 2),
        Vec3.zero.x * rf.sin ((rf.acos (Vec3.dot n n) + rf.pi) / 2),
        Vec3.zero.y * rf.sin ((rf.acos (Vec3.dot n n) + rf.pi) / 2),
        Vec3.zero.z * rf.sin ((rf.acos (Vec3.dot n n) + rf.pi) / 2)⟩ : Quat) =
      (⟨rf.cos ((rf.acos (Vec3.dot n n) + rf.pi) / 2), 0, 0, 0⟩ : Quat) by
    simp [Vec3.zero]]
  rw [mat4_cast_vector_zero]

/-- Witness for C6 at a concrete group: one target patch and one ligand
patch, both with unit normal (0,0,1). -/
theorem equal_normals_identity_fallback_witness :
    (sampleFns.acos (Vec3.dot ⟨0, 0, 1⟩ ⟨0, 0, 1⟩) + sampleFns.pi) / 2 = sampleFns.pi / 2 ∧
    Vec3.cross ⟨0, 0, 1⟩ ⟨0, 0, 1⟩ = Vec3.zero ∧
    transform_of_group sampleFns sampleGraph [samplePatchT] sampleGraph [samplePatchL] [(0, 0)] =
      some ((translateMat
          (cloud_centroid (build_cloud_from_group sampleFns ([((0 : ℕ), (0 : ℕ))].map Prod.fst)
            [samplePatchT] sampleGraph).1)).mul
        (Mat4.identity.mul (translateMat (Vec3.neg
          (cloud_centroid (build_cloud_from_group sampleFns ([((0 : ℕ), (0 : ℕ))].map Prod.snd)
            [samplePatchL] sampleGraph).1))))) :=
  equal_normals_identity_fallback sampleFns sampleGraph sampleGraph [samplePatchT] [samplePatchL]
    [(0, 0)] ⟨0, 0, 1⟩
    (by simp [build_cloud_from_group, descGet, samplePatchT, sampleFns, Vec3.add, Vec3.smul,
      Vec3.zero, Vec3.dot])
    (by simp [build_cloud_from_group, descGet, samplePatchL, sampleFns, Vec3.add, Vec3.smul,
      Vec3.zero, Vec3.dot])
    (by simp [Vec3.dot])
    rfl

def ptKey (p : Vec3) : ℚ ×ₗ (ℚ ×ₗ ℚ) := toLex (p.x, toLex (p.y, p.z))

theorem comp_point_eq_decide (p q : Vec3) : comp_point p q = decide (ptKey p < ptKey q) := by
  unfold comp_point ptKey
  by_cases hx : p.x = q.x <;> by_cases hy : p.y = q.y <;> by_cases hz : p.z = q.z <;>
    simp [hx, hy, hz, Prod.Lex.lt_iff, lt_irrefl]

theorem ptKey_inj {p q : Vec3} (h : ptKey p = ptKey q) : p = q := by
  unfold ptKey at h
  rcases p with ⟨px, py, pz⟩; rcases q with ⟨qx, qy, qz⟩
  simp [Prod.ext_iff] at h
  obtain ⟨h1, h2, h3⟩ := h
  simp_all

theorem comp_point_irrefl (p : Vec3) : comp_point p p = false := by
  rw [comp_point_eq_decide]; simp

theorem comp_point_trans {p q r : Vec3} (h1 : comp_point p q = true)
    (h2 : comp_point q r = true) : comp_point p r = true := by
  rw [comp_point_eq_decide] at *
  simp only [decide_eq_true_eq] at *
  exact lt_trans h1 h2

theorem comp_point_eq_of_not {p q : Vec3} (h1 : ¬ comp_point p q = true)
    (h2 : ¬ comp_point q p = true) : p = q := by
  rw [comp_point_eq_decide] at h1 h2
  simp only [decide_eq_true_eq, not_lt] at h1 h2
  exact ptKey_inj (le_antisymm h2 h1)

theorem mem_setInsert (z p : Vec3) (l : List Vec3) :
    z ∈ setInsert p l ↔ z = p ∨ z ∈ l := by
  induction l with
  | nil => simp [setInsert]
  | cons q qs ih =>
      by_cases h1 : comp_point p q = true
      · simp [setInsert, h1]
      · by_cases h2 : comp_point q p = true
        · simp only [setInsert, if_neg h1, if_pos h2, List.mem_cons, ih]
          tauto
        · have hpq : p = q := comp_point_eq_of_not h1 h2
          subst hpq
          rw [setInsert, if_neg h1, if_neg h2]
          simp only [List.mem_cons]
          tauto

theorem pairwise_setInsert (p : Vec3) (l : List Vec3)
    (h : List.Pairwise (fun a b => comp_point a b = true) l) :
    List.Pairwise (fun a b => comp_point a b = true) (setInsert p l) := by
  induction l with
  | nil => simp [setInsert]
  | cons q qs ih =>
      rcases List.pairwise_cons.mp h with ⟨hq, hqs⟩
      by_cases h1 : comp_point p q = true
      · rw [setInsert, if_pos h1]
        refine List.pairwise_cons.mpr ⟨?_, h⟩
        intro z hz
        rcases List.mem_cons.mp hz with rfl | hz2
        · exact h1
        · exact comp_point_trans h1 (hq z hz2)
      · by_cases h2 : comp_point q p = true
        · rw [setInsert, if_neg h1, if_pos h2]
          refine List.pairwise_cons.mpr ⟨?_, ih hqs⟩
          intro z hz
          rcases (mem_setInsert z p qs).mp hz with rfl | hz2
          · exact h2
          · exact hq z hz2
        · rw [setInsert, if_neg h1, if_neg h2]
          exact h

theorem pairwise_foldl_setInsert (f : Nat → Vec3) (xs : List Nat) (acc : List Vec3)
    (hacc : List.Pairwise (fun a b => comp_point a b = true) acc) :
    List.Pairwise (fun a b => comp_point a b = true)
      (xs.foldl (fun c ni => setInsert (f ni) c) acc) := by
  induction xs generalizing acc with
  | nil => exact hacc
  | cons x xs ih => exact ih _ (pairwise_setInsert _ _ hacc)

theorem mem_foldl_setInsert (f : Nat → Vec3) (xs : List Nat) (acc : List Vec3) (z : Vec3) :
    z ∈ xs.foldl (fun c ni => setInsert (f ni) c) acc ↔ (∃ ni ∈ xs, f ni = z) ∨ z ∈ acc := by
  induction xs generalizing acc with
  | nil => simp
  | cons x xs ih =>
      simp only [List.foldl_cons, ih, mem_setInsert, List.mem_cons]
      constructor
      · rintro (⟨ni, hni, rfl⟩ | rfl | hz)
        · exact Or.inl ⟨ni, Or.inr hni, rfl⟩
        · exact Or.inl ⟨x, Or.inl rfl, rfl⟩
        · exact Or.inr hz
      · rintro (⟨ni, rfl | hni, rfl⟩ | hz)
        · exact Or.inr (Or.inl rfl)
        · exact Or.inl ⟨ni, hni, rfl⟩
        · exact Or.inr (Or.inr hz)

theorem cloud_fold_spec (descriptors : List PatchDesc) (target : Graph) (group : List Nat)
    (acc : List Vec3 × Vec3)
    (hacc : List.Pairwise (fun a b => comp_point a b = true) acc.1) :
    List.Pairwise (fun a b => comp_point a b = true)
      (group.foldl (fun acc2 gi =>
        ((descGet descriptors gi).nodes.foldl
            (fun c ni => setInsert (target.get_node_pos ni) c) acc2.1,
         Vec3.add acc2.2 (descGet descriptors gi).normal)) acc).1 ∧
    ∀ z, (z ∈ (group.foldl (fun acc2 gi =>
        ((descGet descriptors gi).nodes.foldl
            (fun c ni => setInsert (target.get_node_pos ni) c) acc2.1,
         Vec3.add acc2.2 (descGet descriptors gi).normal)) acc).1 ↔
      (∃ gi ∈ group, ∃ ni ∈ (descGet descriptors gi).nodes, target.get_node_pos ni = z) ∨
        z ∈ acc.1) := by
  induction group generalizing acc with
  | nil => exact ⟨hacc, by simp⟩
  | cons g group ih =>
      have hstep : List.Pairwise (fun a b => comp_point a b = true)
          ((descGet descriptors g).nodes.foldl
            (fun c ni => setInsert (target.get_node_pos ni) c) acc.1) :=
        pairwise_foldl_setInsert _ _ _ hacc
      obtain ⟨hp, hm⟩ := ih (((descGet descriptors g).nodes.foldl
          (fun c ni => setInsert (target.get_node_pos ni) c) acc.1,
        Vec3.add acc.2 (descGet descriptors g).normal)) hstep
      refine ⟨hp, fun z => ?_⟩
      rw [List.foldl_cons, hm z]
      simp only [mem_foldl_setInsert, List.mem_cons]
      constructor
      · rintro (⟨gi, hgi, hni⟩ | ⟨ni, hni, rfl⟩ | hz)
        · exact Or.inl ⟨gi, Or.inr hgi, hni⟩
        · exact Or.inl ⟨g, Or.inl rfl, ni, hni, rfl⟩
        · exact Or.inr hz
      · rintro (⟨gi, rfl | hgi, hni⟩ | hz)
        · exact Or.inr (Or.inl hni)
        · exact Or.inl ⟨gi, hgi, hni⟩
        · exact Or.inr (Or.inr hz)

/-- C8: the merged cloud is strictly increasing in comp_point (deterministic
iteration order), has no duplicates under exact coordinate equality (each
vertex position appears exactly once even when reachable from several member
patches), and contains exactly the vertex positions reachable from the member
patches. -/
theorem cloud_merger_dedup (rf : RealFns) (group : List Nat) (descriptors : List PatchDesc)
    (target : Graph) :
    List.Pairwise (fun a b => comp_point a b = true)
      (build_cloud_from_group rf group descriptors target).1 ∧
    (build_cloud_from_group rf group descriptors target).1.Nodup ∧
    ∀ v, (v ∈ (build_cloud_from_group rf group descriptors target).1 ↔
      ∃ gi ∈ group, ∃ ni ∈ (descGet descriptors gi).nodes, target.get_node_pos ni = v) := by
  obtain ⟨hp, hm⟩ := cloud_fold_spec descriptors target group ([], Vec3.zero) (by simp)
  have hbridge : (build_cloud_from_group rf group descriptors target).1 =
      (group.foldl (fun acc2 gi =>
        ((descGet descriptors gi).nodes.foldl
            (fun c ni => setInsert (target.get_node_pos ni) c) acc2.1,
         Vec3.add acc2.2 (descGet descriptors gi).normal)) ([], Vec3.zero)).1 := rfl
  rw [hbridge]
  refine ⟨hp, ?_, fun v => ?_⟩
  · exact hp.imp fun hab heq => by subst heq; simp [comp_point_irrefl] at hab
  · rw [hm v]; simp

/-! ### Claims C1 and C10: the Group Builder's insertion invariant and frame -/

/-- The invariant established at insertion time: every pair of a group is
within G_THRESH (target side and ligand side) of every pair that was already
in the group when it was inserted, i.e. of every earlier pair. -/
def insertion_invariant (P : Parameters) (desc_target desc_ligand : List PatchDesc)
    (g : MatchingGroup) : Prop :=
  List.Pairwise (fun earlier later =>
    ((geodesic_distance later.1 earlier.1 desc_target : ℚ)) ≤ P.G_THRESH ∧
    ((geodesic_distance later.2 earlier.2 desc_ligand : ℚ)) ≤ P.G_THRESH) g

/-- The grouping criterion holds exactly when the candidate pair is within
G_THRESH of every pair already in the group, on both sides. -/
theorem grouping_crit_iff (P : Parameters) (desc_target desc_ligand : List PatchDesc)
    (cur_pair : Nat × Nat) (grp : MatchingGroup) :
    grouping_crit P desc_target desc_ligand cur_pair grp = true ↔
      ∀ pair ∈ grp,
        ((geodesic_distance cur_pair.1 pair.1 desc_target : ℚ)) ≤ P.G_THRESH ∧
        ((geodesic_distance cur_pair.2 pair.2 desc_ligand : ℚ)) ≤ P.G_THRESH := by
  simp [grouping_crit, List.all_eq_true]

/-- One candidate-loop iteration preserves the insertion invariant of every
group: groups receiving the pair checked it against all their members, and a
new singleton group is trivially invariant. -/
theorem add_pair_preserves_inv (P : Parameters) (desc_target desc_ligand : List PatchDesc)
    (groups : List MatchingGroup) (cur_pair : Nat × Nat)
    (h : ∀ g ∈ groups, insertion_invariant P desc_target desc_ligand g) :
    ∀ g ∈ add_pair P desc_target desc_ligand groups cur_pair,
      insertion_invariant P desc_target desc_ligand g := by
  intro g hg
  have hmap : ∀ g2 ∈ groups.map (fun grp =>
      if grouping_crit P desc_target desc_ligand cur_pair grp then grp ++ [cur_pair] else grp),
      insertion_invariant P desc_target desc_ligand g2 := by
    intro g2 hg2
    rcases List.mem_map.mp hg2 with ⟨grp, hgrp, rfl⟩
    by_cases hc : grouping_crit P desc_target desc_ligand cur_pair grp = true
    · rw [if_pos hc]
      rw [insertion_invariant, List.pairwise_append]
      refine ⟨h grp hgrp, List.pairwise_singleton _ _, ?_⟩
      intro a ha b hb
      rcases List.mem_singleton.mp hb with rfl
      exact (grouping_crit_iff P desc_target desc_ligand b grp).mp hc a ha
    · rw [if_neg hc]
      exact h grp hgrp
  unfold add_pair at hg
  by_cases hany : groups.any (grouping_crit P desc_target desc_ligand cur_pair) = true
  · rw [if_pos hany] at hg
    exact hmap g hg
  · rw [if_neg hany] at hg
    rcases List.mem_append.mp hg with hg2 | hg2
    · exact hmap g hg2
    · rcases List.mem_singleton.mp hg2 with rfl
      exact List.pairwise_singleton _ _

theorem process_pairs_preserves_inv (P : Parameters) (desc_target desc_ligand : List PatchDesc)
    (t : Nat) (cands : List (Score × Nat)) (groups : List MatchingGroup)
    (h : ∀ g ∈ groups, insertion_invariant P desc_target desc_ligand g) :
    ∀ g ∈ process_pairs P desc_target desc_ligand t cands groups,
      insertion_invariant P desc_target desc_ligand g := by
  induction cands generalizing groups with
  | nil => exact h
  | cons c cands ih =>
      exact ih _ (add_pair_preserves_inv P desc_target desc_ligand groups (t, c.2) h)

theorem bmgAux_preserves_inv (P : Parameters) (desc_target desc_ligand : List PatchDesc)
    (ts : List Nat) (groups out : List MatchingGroup)
    (h : ∀ g ∈ groups, insertion_invariant P desc_target desc_ligand g)
    (hrun : bmgAux P desc_target desc_ligand ts groups = some out) :
    ∀ g ∈ out, insertion_invariant P desc_target desc_ligand g := by
  induction ts generalizing groups with
  | nil =>
      rw [bmgAux] at hrun
      cases hrun
      exact h
  | cons t ts ih =>
      rw [bmgAux] at hrun
      rcases hc : ranked_candidates P (descGet desc_target t) desc_ligand with _ | cands
      · rw [hc] at hrun; cases hrun
      · rw [hc] at hrun
        exact ih _ (process_pairs_preserves_inv P desc_target desc_ligand t cands groups h) hrun

/-- C1: (i) every group produced by build_matching_groups satisfies the
pairwise insertion invariant (each pair within G_THRESH, on both sides, of
every member present at its insertion), provided the initial groups did; and
(ii) each processed candidate pair is appended to every existing group
satisfying the criterion, with a new singleton group appended exactly when no
existing group satisfied it. -/
theorem build_matching_groups_insertion_inv (P : Parameters)
    (desc_target desc_ligand : List PatchDesc) (init out : List MatchingGroup)
    (hinit : ∀ g ∈ init, insertion_invariant P desc_target desc_ligand g)
    (h : build_matching_groups P desc_target desc_ligand init = some out) :
    (∀ g ∈ out, insertion_invariant P desc_target desc_ligand g) ∧
    (∀ groups cur_pair, add_pair P desc_target desc_ligand groups cur_pair =
      (groups.map fun grp =>
        if grouping_crit P desc_target desc_ligand cur_pair grp then grp ++ [cur_pair] else grp) ++
      (if groups.any (grouping_crit P desc_target desc_ligand cur_pair) then []
       else [[cur_pair]])) := by
  refine ⟨bmgAux_preserves_inv P desc_target desc_ligand _ init out hinit h, ?_⟩
  intro groups cur_pair
  unfold add_pair
  by_cases hany : groups.any (grouping_crit P desc_target desc_ligand cur_pair) = true
  · rw [if_pos hany, if_pos hany, List.append_nil]
  · rw [if_neg hany, if_neg hany]

/-- Witness for C1: one target and one eligible ligand patch produce the
single group [(0,0)], which satisfies the invariant. -/
theorem build_matching_groups_insertion_inv_witness :
    (∀ g ∈ [[((0 : ℕ), (0 : ℕ))]],
      insertion_invariant sampleParams [samplePatchT] [samplePatchL] g) ∧
    (∀ groups cur_pair, add_pair sampleParams [samplePatchT] [samplePatchL] groups cur_pair =
      (groups.map fun grp =>
        if grouping_crit sampleParams [samplePatchT] [samplePatchL] cur_pair grp then
          grp ++ [cur_pair]
        else grp) ++
      (if groups.any (grouping_crit sampleParams [samplePatchT] [samplePatchL] cur_pair) then []
       else [[cur_pair]])) :=
  build_matching_groups_insertion_inv sampleParams [samplePatchT] [samplePatchL] [] [[(0, 0)]]
    (by simp)
    (by simp [build_matching_groups, bmgAux, ranked_candidates, similarity_list, scoreOf,
      sortPairs, insSorted, process_pairs, add_pair, grouping_crit, descGet,
      List.range_succ, samplePatchT, samplePatchL, sampleParams])

/-- Frame relation on the groups_out accumulator: no group is removed or
reordered; each pre-existing slot holds its old group possibly extended by
appended pairs. -/
def groupsExtend (a b : List MatchingGroup) : Prop :=
  a.length ≤ b.length ∧ ∀ i, i < a.length → ∃ ext, b.getD i [] = a.getD i [] ++ ext

theorem groupsExtend_trans {a b c : List MatchingGroup} (h1 : groupsExtend a b)
    (h2 : groupsExtend b c) : groupsExtend a c := by
  refine ⟨le_trans h1.1 h2.1, fun i hi => ?_⟩
  obtain ⟨e1, he1⟩ := h1.2 i hi
  obtain ⟨e2, he2⟩ := h2.2 i (lt_of_lt_of_le hi h1.1)
  exact ⟨e1 ++ e2, by rw [he2, he1, List.append_assoc]⟩

theorem map_getD_groups (f : MatchingGroup → MatchingGroup) (l : List MatchingGroup) (i : Nat)
    (h : i < l.length) : (l.map f).getD i [] = f (l.getD i []) := by
  induction l generalizing i with
  | nil => simp at h
  | cons x xs ih =>
      cases i with
      | zero => simp
      | succ n =>
          simp only [List.map_cons, List.getD_cons_succ]
          exact ih n (by simpa using Nat.lt_of_succ_lt_succ h)

theorem add_pair_extends (P : Parameters) (desc_target desc_ligand : List PatchDesc)
    (groups : List MatchingGroup) (cur_pair : Nat × Nat) :
    groupsExtend groups (add_pair P desc_target desc_ligand groups cur_pair) := by
  have hget : ∀ i, i < groups.length → ∃ ext,
      (groups.map fun grp =>
        if grouping_crit P desc_target desc_ligand cur_pair grp then grp ++ [cur_pair]
        else grp).getD i [] = groups.getD i [] ++ ext := by
    intro i hi
    rw [map_getD_groups _ _ i hi]
    by_cases hc : grouping_crit P desc_target desc_ligand cur_pair (groups.getD i []) = true
    · exact ⟨[cur_pair], by rw [if_pos hc]⟩
    · exact ⟨[], by rw [if_neg hc, List.append_nil]⟩
  unfold add_pair
  by_cases hany : groups.any (grouping_crit P desc_target desc_ligand cur_pair) = true
  · rw [if_pos hany]
    exact ⟨by simp, hget⟩
  · rw [if_neg hany]
    refine ⟨by simp, fun i hi => ?_⟩
    obtain ⟨ext, he⟩ := hget i hi
    refine ⟨ext, ?_⟩
    rw [List.getD_append _ _ _ _ (by simpa using hi)]
    exact he

theorem process_pairs_extends (P : Parameters) (desc_target desc_ligand : List PatchDesc)
    (t : Nat) (cands : List (Score × Nat)) (groups : List MatchingGroup) :
    groupsExtend groups (process_pairs P desc_target desc_ligand t cands groups) := by
  induction cands generalizing groups with
  | nil => exact ⟨le_refl _, fun i _ => ⟨[], (List.append_nil _).symm⟩⟩
  | cons c cands ih =>
      exact groupsExtend_trans (add_pair_extends P desc_target desc_ligand groups (t, c.2)) (ih _)

theorem bmgAux_extends (P : Parameters) (desc_target desc_ligand : List PatchDesc)
    (ts : List Nat) (groups out : List MatchingGroup)
    (hrun : bmgAux P desc_target desc_ligand ts groups = some out) :
    groupsExtend groups out := by
  induction ts generalizing groups with
  | nil =>
      rw [bmgAux] at hrun
      cases hrun
      exact ⟨le_refl _, fun i _ => ⟨[], (List.append_nil _).symm⟩⟩
  | cons t ts ih =>
      rw [bmgAux] at hrun
      rcases hc : ranked_candidates P (descGet desc_target t) desc_ligand with _ | cands
      · rw [hc] at hrun; cases hrun
      · rw [hc] at hrun
        exact groupsExtend_trans (process_pairs_extends P desc_target desc_ligand t cands groups)
          (ih _ hrun)

/-- C10: build_matching_groups only appends: every group present in
groups_out at the start is still at the same index afterwards (possibly
extended by newly grouped pairs, since initial groups participate in the
grouping criterion), and transformations_from_matching_groups leaves the
initial mg_transformation entries unchanged, appending after them. -/
theorem append_only_frame (P : Parameters) (desc_target desc_ligand : List PatchDesc)
    (init out : List MatchingGroup)
    (h : build_matching_groups P desc_target desc_ligand init = some out) :
    (init.length ≤ out.length ∧
      ∀ i, i < init.length → ∃ ext, out.getD i [] = init.getD i [] ++ ext) ∧
    (∀ rf mgs (target ligand : Graph) tinit,
      ∃ news, transformations_from_matching_groups rf mgs target desc_target ligand
        desc_ligand tinit = tinit ++ news) := by
  refine ⟨bmgAux_extends P desc_target desc_ligand _ init out h, ?_⟩
  intro rf mgs target ligand tinit
  exact ⟨mgs.map (transform_of_group rf target desc_target ligand desc_ligand),
    tfmg_eq_append_map rf mgs target desc_target ligand desc_ligand tinit⟩

/-- Witness for C10: starting from the pre-existing group [(5,5)], the run
appends the new pair (0,0) to that group in place (the old slot is extended,
nothing removed) and appends nothing else. -/
theorem append_only_frame_witness :
    (([[((5 : ℕ), (5 : ℕ))]] : List MatchingGroup).length ≤
        ([[(5, 5), (0, 0)]] : List MatchingGroup).length ∧
      ∀ i, i < ([[((5 : ℕ), (5 : ℕ))]] : List MatchingGroup).length →
        ∃ ext, ([[(5, 5), (0, 0)]] : List MatchingGroup).getD i [] =
          ([[((5 : ℕ), (5 : ℕ))]] : List MatchingGroup).getD i [] ++ ext) ∧
    (∀ rf mgs (target ligand : Graph) tinit,
      ∃ news, transformations_from_matching_groups rf mgs target [samplePatchT] ligand
        [samplePatchL] tinit = tinit ++ news) :=
  append_only_frame sampleParams [samplePatchT] [samplePatchL] [[(5, 5)]] [[(5, 5), (0, 0)]]
    (by
      have hsqrt1 : Nat.sqrt 1 = 1 := by norm_num
      simp [build_matching_groups, bmgAux, ranked_candidates, similarity_list, scoreOf,
        sortPairs, insSorted, process_pairs, add_pair, grouping_crit, geodesic_distance,
        isqrtQ, descGet, defaultPatch, Vec3.sub, Vec3.dot, Vec3.zero, List.range_succ,
        samplePatchT, samplePatchL, sampleParams, hsqrt1])

/-! ### Claim C9: the kept candidate list is sorted with index tie-break -/

/-- Order key of a non-NaN score: finite scores map to themselves, +inf to
top. -/
def scoreKey : Score → WithTop ℚ
  | Score.fin q => (q : WithTop ℚ)
  | _ => ⊤

/-- Order key of a (score, ligand index) entry: lexicographic on score then
index, matching std::pair operator< on NaN-free entries. -/
def pairKey (e : Score × Nat) : (WithTop ℚ) ×ₗ ℕ := toLex (scoreKey e.1, e.2)

theorem scoreLtB_eq_key {a b : Score} (ha : a ≠ Score.nan) (hb : b ≠ Score.nan) :
    scoreLtB a b = decide (scoreKey a < scoreKey b) := by
  cases a <;> cases b <;>
    simp_all [scoreLtB, scoreKey, WithTop.coe_lt_top, lt_irrefl]

theorem scoreKey_inj {a b : Score} (ha : a ≠ Score.nan) (hb : b ≠ Score.nan)
    (h : scoreKey a = scoreKey b) : a = b := by
  cases a <;> cases b <;> simp_all [scoreKey]

theorem pairLtB_eq_key {a b : Score × Nat} (ha : a.1 ≠ Score.nan) (hb : b.1 ≠ Score.nan) :
    pairLtB a b = decide (pairKey a < pairKey b) := by
  unfold pairLtB pairKey
  rcases lt_trichotomy (scoreKey a.1) (scoreKey b.1) with h | h | h
  · simp [scoreLtB_eq_key ha hb, scoreLtB_eq_key hb ha, Prod.Lex.lt_iff, h]
  · simp [scoreLtB_eq_key ha hb, scoreLtB_eq_key hb ha, Prod.Lex.lt_iff, h, lt_irrefl]
  · simp [scoreLtB_eq_key ha hb, scoreLtB_eq_key hb ha, Prod.Lex.lt_iff, h, asymm h,
      (ne_of_gt h), lt_asymm h]

theorem mem_insSorted_pairs (x y : Score × Nat) (l : List (Score × Nat)) :
    y ∈ insSorted x l ↔ y = x ∨ y ∈ l := by
  induction l with
  | nil => simp [insSorted]
  | cons z zs ih =>
      by_cases h : pairLtB x z = true
      · simp [insSorted, h]
      · simp only [insSorted, if_neg h, List.mem_cons, ih]
        tauto

theorem pairwise_key_insSorted (x : Score × Nat) (l : List (Score × Nat))
    (hx : x.1 ≠ Score.nan) (hl : ∀ e ∈ l, e.1 ≠ Score.nan)
    (hidx : ∀ y ∈ l, x.2 ≠ y.2)
    (hp : List.Pairwise (fun a b => pairKey a < pairKey b) l) :
    List.Pairwise (fun a b => pairKey a < pairKey b) (insSorted x l) := by
  induction l with
  | nil => simp [insSorted]
  | cons y ys ih =>
      rcases List.pairwise_cons.mp hp with ⟨hy, hys⟩
      have hyn : y.1 ≠ Score.nan := hl y (List.mem_cons_self y ys)
      by_cases h : pairLtB x y = true
      · rw [insSorted, if_pos h]
        have hxy : pairKey x < pairKey y := by
          have := pairLtB_eq_key hx hyn
          rw [h] at this
          exact of_decide_eq_true this.symm
        refine List.pairwise_cons.mpr ⟨?_, hp⟩
        intro z hz
        rcases List.mem_cons.mp hz with rfl | hz2
        · exact hxy
        · exact lt_trans hxy (hy z hz2)
      · rw [insSorted, if_neg h]
        have hnxy : ¬ pairKey x < pairKey y := by
          intro hlt
          exact h ((pairLtB_eq_key hx hyn).trans (decide_eq_true hlt))
        have hkne : pairKey x ≠ pairKey y := by
          intro he
          have : x.2 = y.2 := congrArg (fun k => (ofLex k).2) he
          exact hidx y (List.mem_cons_self y ys) this
        have hyx : pairKey y < pairKey x := by
          rcases lt_trichotomy (pairKey x) (pairKey y) with hc | hc | hc
          · exact absurd hc hnxy
          · exact absurd hc hkne
          · exact hc
        refine List.pairwise_cons.mpr ⟨?_, ?_⟩
        · intro z hz
          rcases (mem_insSorted_pairs x z ys).mp hz with rfl | hz2
          · exact hyx
          · exact hy z hz2
        · exact ih (fun e he => hl e (List.mem_cons_of_mem y he))
            (fun e he => hidx e (List.mem_cons_of_mem y he)) hys

theorem mem_sortPairs (l : List (Score × Nat)) (y : Score × Nat) :
    y ∈ sortPairs l ↔ y ∈ l := by
  induction l with
  | nil => simp [sortPairs]
  | cons x xs ih =>
      rw [sortPairs, mem_insSorted_pairs, ih, List.mem_cons]

theorem pairwise_key_sortPairs (l : List (Score × Nat))
    (hl : ∀ e ∈ l, e.1 ≠ Score.nan)
    (hidx : List.Pairwise (fun a b => a.2 ≠ b.2) l) :
    List.Pairwise (fun a b => pairKey a < pairKey b) (sortPairs l) := by
  induction l with
  | nil => simp [sortPairs]
  | cons x xs ih =>
      rcases List.pairwise_cons.mp hidx with ⟨hx, hxs⟩
      rw [sortPairs]
      exact pairwise_key_insSorted x (sortPairs xs)
        (hl x (List.mem_cons_self x xs))
        (fun e he => hl e (List.mem_cons_of_mem x ((mem_sortPairs xs e).mp he)))
        (fun e he => hx e ((mem_sortPairs xs e).mp he))
        (ih (fun e he => hl e (List.mem_cons_of_mem x he)) hxs)

theorem similarity_list_indices (t_patch : PatchDesc) (desc_ligand : List PatchDesc) :
    List.Pairwise (fun a b => a.2 < b.2) (similarity_list t_patch desc_ligand) := by
  unfold similarity_list
  refine List.pairwise_filterMap.mpr ?_
  refine (List.pairwise_lt_range _).imp ?_
  intro a b hab x hx y hy
  by_cases hca : t_patch.ctype ≠ (descGet desc_ligand a).ctype
  · rw [if_pos hca] at hx
    by_cases hcb : t_patch.ctype ≠ (descGet desc_ligand b).ctype
    · rw [if_pos hcb] at hy
      rw [Option.mem_some_iff] at hx hy
      subst hx; subst hy
      exact hab
    · rw [if_neg hcb] at hy
      cases hy
  · rw [if_neg hca] at hx
    cases hx

theorem claimRel_iff_key {a b : Score × Nat} (ha : a.1 ≠ Score.nan) (hb : b.1 ≠ Score.nan) :
    (scoreLtB a.1 b.1 = true ∨ (a.1 = b.1 ∧ a.2 < b.2)) ↔ pairKey a < pairKey b := by
  rw [scoreLtB_eq_key ha hb]
  unfold pairKey
  rw [Prod.Lex.lt_iff]
  simp only [decide_eq_true_eq]
  constructor
  · rintro (h | ⟨h1, h2⟩)
    · exact Or.inl h
    · exact Or.inr ⟨by rw [h1], h2⟩
  · rintro (h | ⟨h1, h2⟩)
    · exact Or.inl h
    · exact Or.inr ⟨scoreKey_inj ha hb h1, h2⟩

/-- C9: whenever the ranking step is defined, the kept candidate list is
sorted in strictly ascending (score, ligand index) order: between any two
entries, either the earlier score is strictly smaller, or the scores are
equal and the earlier entry has the smaller original ligand index (the
stable tie-break). -/
theorem ranked_candidates_sorted (P : Parameters) (t_patch : PatchDesc)
    (desc_ligand : List PatchDesc) (kept : List (Score × Nat))
    (h : ranked_candidates P t_patch desc_ligand = some kept) :
    List.Pairwise (fun a b => scoreLtB a.1 b.1 = true ∨ (a.1 = b.1 ∧ a.2 < b.2)) kept := by
  unfold ranked_candidates at h
  by_cases h1 : (similarity_list t_patch desc_ligand).any (fun e => decide (e.1 = Score.nan)) = true
  · rw [if_pos h1] at h; cases h
  · rw [if_neg h1] at h
    by_cases h2 : P.N_BEST_PAIRS ≤ (similarity_list t_patch desc_ligand).length
    · rw [if_pos h2] at h
      injection h with h
      subst h
      have hnonan : ∀ e ∈ similarity_list t_patch desc_ligand, e.1 ≠ Score.nan := by
        intro e he heq
        exact h1 (List.any_eq_true.mpr ⟨e, he, by simp [heq]⟩)
      have hidx : List.Pairwise (fun a b : Score × Nat => a.2 ≠ b.2)
          (similarity_list t_patch desc_ligand) :=
        (similarity_list_indices t_patch desc_ligand).imp fun hab => Nat.ne_of_lt hab
      have hkey := pairwise_key_sortPairs _ hnonan hidx
      have htake : List.Pairwise (fun a b => pairKey a < pairKey b)
          ((sortPairs (similarity_list t_patch desc_ligand)).take P.N_BEST_PAIRS) :=
        hkey.sublist (List.take_sublist _ _)
      refine htake.imp_of_mem ?_
      intro a b hamem hbmem hab
      have ha : a.1 ≠ Score.nan := hnonan a ((mem_sortPairs _ a).mp
        ((List.take_sublist _ _).mem hamem))
      have hb : b.1 ≠ Score.nan := hnonan b ((mem_sortPairs _ b).mp
        ((List.take_sublist _ _).mem hbmem))
      exact (claimRel_iff_key ha hb).mpr hab
    · rw [if_neg h2] at h; cases h

def sampleLigandB : PatchDesc :=
  { pos := ⟨2, 0, 0⟩, normal := ⟨0, 0, 1⟩, nodes := [1], curv := 1, ctype := 1 }

/-- Witness for C9: two eligible ligand candidates with identical scores are
kept in ligand-index order. -/
theorem ranked_candidates_sorted_witness :
    List.Pairwise (fun a b : Score × Nat => scoreLtB a.1 b.1 = true ∨ (a.1 = b.1 ∧ a.2 < b.2))
      [(Score.fin 0, 0), (Score.fin 0, 1)] :=
  ranked_candidates_sorted ⟨2, 10⟩ samplePatchT [samplePatchL, sampleLigandB]
    [(Score.fin 0, 0), (Score.fin 0, 1)]
    (by
      norm_num [ranked_candidates, similarity_list, scoreOf, sortPairs, insSorted,
        pairLtB, scoreLtB, descGet, List.range_succ, List.filterMap_cons, List.filterMap_nil,
        List.getElem?_cons_zero, List.getElem?_cons_succ, samplePatchT, samplePatchL,
        sampleLigandB]
      intro h
      cases h)
